import Mathlib

/-!
Shallow embedding of the authorization core of the `core-lab` repository:
the bitmask permission claims (`pkg/auth/claims.go`), the claim decoding and
request-time enforcement (`pkg/auth/authorizer.go`), the permission store and
code generation (`pkg/permissions`), and the token cache (`pkg/http`).

Go strings are modelled as `List Char`; Go `int64` values as `Int` (all
arithmetic performed by the embedded code stays far within the `int64`
range, and the base-36 parser enforces the 64-bit signed range checks the
Go standard library performs, so unbounded `Int` agrees with `int64` here).
Go maps are modelled as association lists with unique keys; stateful code is
modelled by explicit state passing.
-/

namespace CoreLab

/-! ## Go string primitives (over `List Char`) -/

/-- Whitespace as recognized by Go's `unicode.IsSpace` restricted to the
Latin-1 range (space, tab, newline, vertical tab, form feed, carriage
return, NEL, NBSP), which covers every character the embedded code and
claims exercise. -/
def isGoSpace (c : Char) : Bool :=
  c = ' ' || c = '\t' || c = '\n' || c = Char.ofNat 0x0B || c = Char.ofNat 0x0C ||
  c = '\r' || c = Char.ofNat 0x85 || c = Char.ofNat 0xA0

/-- Go `strings.TrimSpace`: drop leading and trailing whitespace. -/
def trimGo (l : List Char) : List Char :=
  (((l.dropWhile isGoSpace).reverse).dropWhile isGoSpace).reverse

/-- ASCII lower-casing of a single character, as Go's `strings.ToLower`
acts on the ASCII strings handled by this code. -/
def toLowerGo (l : List Char) : List Char := l.map Char.toLower

/-- ASCII upper-casing, as Go's `strings.ToUpper` on ASCII strings. -/
def toUpperGo (l : List Char) : List Char := l.map Char.toUpper

/-- Go `strings.EqualFold` on the ASCII strings handled by this code. -/
def eqFoldGo (a b : List Char) : Bool := decide (toLowerGo a = toLowerGo b)

/-- Go `strings.Split(s, sep)` for a one-character separator: always returns
one more piece than the number of separator occurrences. -/
def splitOn (sep : Char) : List Char → List (List Char)
  | [] => [[]]
  | c :: rest =>
    if c = sep then [] :: splitOn sep rest
    else (c :: (splitOn sep rest).headD []) :: (splitOn sep rest).tail

/-- Go `strings.SplitN(s, sep, 2)` for a one-character separator, returning
`none` when the separator is absent (the `len(parts) != 2` case). -/
def splitFirst (sep : Char) : List Char → Option (List Char × List Char)
  | [] => none
  | c :: rest =>
    if c = sep then some ([], rest)
    else (splitFirst sep rest).map (fun p => (c :: p.1, p.2))

/-- Go `strings.Join(xs, sep)` for a one-character separator. -/
def joinSep (sep : Char) : List (List Char) → List Char
  | [] => []
  | [x] => x
  | x :: y :: t => x ++ sep :: joinSep sep (y :: t)

/-! ## Association-list model of Go maps -/

/-- Lookup in an association list (Go map read). -/
def mapLookup {α β : Type} [DecidableEq α] : List (α × β) → α → Option β
  | [], _ => none
  | (k', v') :: rest, k => if k' = k then some v' else mapLookup rest k

/-- Insert-or-overwrite in an association list (Go map write). -/
def mapInsert {α β : Type} [DecidableEq α] : List (α × β) → α → β → List (α × β)
  | [], k, v => [(k, v)]
  | (k', v') :: rest, k, v =>
    if k' = k then (k, v) :: rest else (k', v') :: mapInsert rest k v

/-! ## Base-36 parsing (`strconv.ParseInt(s, 36, 64)`) and formatting -/

/-- Digit value of a character in base 36, per Go's `strconv.ParseUint`
digit table (`0`-`9`, `a`-`z`, `A`-`Z`). -/
def digitVal (c : Char) : Option Nat :=
  if '0' ≤ c ∧ c ≤ '9' then some (c.toNat - '0'.toNat)
  else if 'a' ≤ c ∧ c ≤ 'z' then some (c.toNat - 'a'.toNat + 10)
  else if 'A' ≤ c ∧ c ≤ 'Z' then some (c.toNat - 'A'.toNat + 10)
  else none

/-- Accumulating core of `strconv.ParseUint(s, 36, ...)`: fails on any
non-digit character. -/
def parseNatCore (acc : Nat) : List Char → Option Nat
  | [] => some acc
  | c :: rest =>
    match digitVal c with
    | none => none
    | some d => parseNatCore (36 * acc + d) rest

/-- `strconv.ParseUint(s, 36, ...)` magnitude parsing: empty input fails. -/
def parseNatBase36 : List Char → Option Nat
  | [] => none
  | c :: rest => parseNatCore 0 (c :: rest)

/-- Positive-branch range check of `strconv.ParseInt(s, 36, 64)`. -/
def int64OfNat (n : Nat) : Option Int :=
  if n < 2 ^ 63 then some (n : Int) else none

/-- Negative-branch range check of `strconv.ParseInt(s, 36, 64)`. -/
def int64NegOfNat (n : Nat) : Option Int :=
  if n ≤ 2 ^ 63 then some (-(n : Int)) else none

/-- Go `strconv.ParseInt(s, 36, 64)`: optional sign, base-36 magnitude,
64-bit signed range check. -/
def parseIntBase36 (l : List Char) : Option Int :=
  match l with
  | [] => none
  | c :: rest =>
    if c = '+' then (parseNatBase36 rest).bind int64OfNat
    else if c = '-' then (parseNatBase36 rest).bind int64NegOfNat
    else (parseNatBase36 (c :: rest)).bind int64OfNat

/-- Character of a base-36 digit, as produced by Go's `strconv.FormatInt`
(lower-case letters). -/
def digitChar36 (d : Nat) : Char :=
  if d < 10 then Char.ofNat ('0'.toNat + d) else Char.ofNat ('a'.toNat + (d - 10))

/-- Fuel-driven little-endian base-36 digit extraction; the fuel only
bounds the recursion depth and `toDigitsRev` always supplies enough. -/
def toDigitsRevCore : Nat → Nat → List Char
  | 0, _ => []
  | fuel + 1, n =>
    if n < 36 then [digitChar36 n]
    else digitChar36 (n % 36) :: toDigitsRevCore fuel (n / 36)

/-- Little-endian base-36 digit list of a natural number. -/
def toDigitsRev (n : Nat) : List Char := toDigitsRevCore (n + 1) n

/-- Go `strconv.FormatInt(n, 36)` for non-negative `n`. -/
def formatBase36 (n : Nat) : List Char := (toDigitsRev n).reverse

/-- Go `strconv.FormatInt(i, 36)` for arbitrary `int64` values. -/
def formatIntBase36 (i : Int) : List Char :=
  if i < 0 then '-' :: formatBase36 (-i).toNat else formatBase36 i.toNat

/-! ## svc_perm claim decoding (`decodeServicePermissionsMultiRange`) -/

/-- A decoded service-permissions map: lower-cased service key to its list
of 63-bit ranges. -/
abbrev SvcMap := List (List Char × List Int)

/-- One loop iteration over a comma-separated range token: trim, skip if
empty, parse base-36, skip on error (`decodeServicePermissionsMultiRange`,
inner loop). -/
def parseRangeToken (t : List Char) : Option Int :=
  if trimGo t = [] then none else parseIntBase36 (trimGo t)

/-- The ranges accumulated from the comma-separated tokens of one entry:
failed tokens are skipped, successes appended in order. -/
def parseRanges (ts : List (List Char)) : List Int := ts.filterMap parseRangeToken

/-- The binding (if any) produced by one `;`-separated entry of the
`svc_perm` claim: trim, require a `:`, lower-case and trim the service key,
require it and the range part non-empty, parse the ranges, require at least
one range (`decodeServicePermissionsMultiRange`, outer loop body). -/
def entryBinding (entry0 : List Char) : Option (List Char × List Int) :=
  let entry := trimGo entry0
  if entry = [] then none
  else
    match splitFirst ':' entry with
    | none => none
    | some parts =>
      let serviceKey := toLowerGo (trimGo parts.1)
      if serviceKey = [] then none
      else
        let rangesStr := trimGo parts.2
        if rangesStr = [] then none
        else
          let ranges := parseRanges (splitOn ',' rangesStr)
          if ranges = [] then none else some (serviceKey, ranges)

/-- Fold step of the decoder: a malformed entry contributes nothing, a
well-formed one overwrites the binding for its service key. -/
def processEntry (m : SvcMap) (entry : List Char) : SvcMap :=
  match entryBinding entry with
  | none => m
  | some kv => mapInsert m kv.1 kv.2

/-- `decodeServicePermissionsMultiRange` of `pkg/auth/authorizer.go`:
empty (after trimming) claim decodes to the empty map; otherwise the raw
string is split on `;` and each entry processed in order. -/
def decodeServicePermissionsMultiRange (raw : List Char) : SvcMap :=
  if trimGo raw = [] then []
  else (splitOn ';' raw).foldl processEntry []

/-- Spec-side re-encoder of a decoded map in the wire format described by
the spec (`service:base36(r0),base36(r1),...` entries joined by `;`), used
to state round-trip stability. -/
def encodeEntry (p : List Char × List Int) : List Char :=
  p.1 ++ ':' :: joinSep ',' (p.2.map formatIntBase36)

/-- Spec-side encoder of a whole `svc_perm` map. -/
def encodeSvcPerm (m : SvcMap) : List Char := joinSep ';' (m.map encodeEntry)

/-! ## Go values and `fmt.Sprint` (for raw JWT claim maps) -/

/-- The dynamic values a decoded JWT claim map can hold, restricted to the
shapes the embedded code inspects. `vnil` is the missing-key `nil`
interface value. -/
inductive GoVal where
  | vstr : List Char → GoVal
  | vnum : Int → GoVal
  | vbool : Bool → GoVal
  | vnil : GoVal
deriving DecidableEq

/-- Go `fmt.Sprint` on the modelled values; a `nil` interface prints as
`<nil>`. -/
def sprint : GoVal → List Char
  | .vstr s => s
  | .vnum n => (toString n).toList
  | .vbool b => if b then ['t', 'r', 'u', 'e'] else ['f', 'a', 'l', 's', 'e']
  | .vnil => ['<', 'n', 'i', 'l', '>']

/-! ## Claims (`pkg/auth/claims.go`, multi-range variant) -/

/-- Verified JWT context (`Claims` struct of `pkg/auth/claims.go`). -/
structure Claims where
  Subject : List Char
  IdentityID : List Char
  RoleID : List Char
  TokenUse : List Char
  ServicePermissions : SvcMap
  Raw : List (List Char × GoVal)

/-- `Claims.IsServiceToken`: `TokenUse`, trimmed, equals `"service"`
case-insensitively. -/
def Claims.IsServiceToken (c : Claims) : Bool :=
  eqFoldGo (trimGo c.TokenUse) ['s', 'e', 'r', 'v', 'i', 'c', 'e']

/-- `Claims.HasPermission` (multi-range variant of `pkg/auth/claims.go`):
negative bit value is rejected, the service key is lower-cased and trimmed,
an empty range list is rejected, and otherwise bit `bitValue % 63` of range
`bitValue / 63` is tested when that range index is in bounds. -/
def Claims.HasPermission (c : Claims) (service : List Char) (bitValue : Int) : Bool :=
  if bitValue < 0 then false
  else
    let ranges := (mapLookup c.ServicePermissions (toLowerGo (trimGo service))).getD []
    if ranges.length = 0 then false
    else
      let rangeIndex := bitValue / 63
      let positionInRange := bitValue % 63
      let bitMask : Int := 2 ^ positionInRange.toNat
      if rangeIndex < (ranges.length : Int) then
        decide (Int.land (ranges.getD rangeIndex.toNat 0) bitMask = bitMask)
      else false

/-- Legacy single-mask `Claims.HasPermission` variant (second source
variant of `pkg/auth/claims.go`): `bitValue` is a raw mask, zero is
rejected outright. -/
def hasPermissionLegacy (perms : List (List Char × Int)) (service : List Char)
    (bitValue : Int) : Bool :=
  if bitValue = 0 then false
  else
    let mask := (mapLookup perms (toLowerGo (trimGo service))).getD 0
    decide (Int.land mask bitValue = bitValue)

/-- `mapClaimsToAuthClaims` of `pkg/auth/authorizer.go`: a missing map key
reads as the `nil` interface value (printed `<nil>` by `fmt.Sprint`), an
empty `token_use` defaults to `access`, and `svc_perm` is printed and
decoded with the multi-range decoder (a missing `svc_perm` decodes the
empty string). -/
def mapClaimsToAuthClaims (raw : List (List Char × GoVal)) : Claims :=
  let tokenUse0 := trimGo (sprint ((mapLookup raw ['t', 'o', 'k', 'e', 'n', '_', 'u', 's', 'e']).getD .vnil))
  let tokenUse := if tokenUse0 = [] then ['a', 'c', 'c', 'e', 's', 's'] else tokenUse0
  let svcPermRaw :=
    match mapLookup raw ['s', 'v', 'c', '_', 'p', 'e', 'r', 'm'] with
    | some v => sprint v
    | none => []
  { Subject := trimGo (sprint ((mapLookup raw ['s', 'u', 'b']).getD .vnil))
    IdentityID := trimGo (sprint ((mapLookup raw ['i', 'd', 'e', 'n', 't', 'i', 't', 'y', '_', 'i', 'd']).getD .vnil))
    RoleID := trimGo (sprint ((mapLookup raw ['r', 'o', 'l', 'e', '_', 'i', 'd']).getD .vnil))
    TokenUse := tokenUse
    ServicePermissions := decodeServicePermissionsMultiRange svcPermRaw
    Raw := raw }

/-! ## Permission metadata and the request-time decision
(`Authorizer.RequirePermission`) -/

/-- `permissions.Metadata`: id, owning service, sequential bit position. -/
structure Metadata where
  ID : List Char
  Service : List Char
  BitValue : Int
deriving DecidableEq

/-- Outcome of the permission middleware for one request: proceed to the
handler, or abort with an HTTP status and error code. -/
inductive AuthzOutcome where
  | allow : AuthzOutcome
  | reject : Nat → List Char → AuthzOutcome
deriving DecidableEq

/-- The decision core of `Authorizer.RequirePermission` after successful
authentication and resolution of the `PermissionLookup` collaborator:
service tokens bypass the check, an unregistered code fails closed with
403 `permission_not_registered`, and otherwise the bitmask decides between
proceeding and 403 `permission_denied`. -/
def requirePermissionDecision (claims : Claims)
    (lookup : List Char → Option Metadata) (code : List Char) : AuthzOutcome :=
  if claims.IsServiceToken then .allow
  else
    match lookup code with
    | none =>
        .reject 403
          ['p', 'e', 'r', 'm', 'i', 's', 's', 'i', 'o', 'n', '_', 'n', 'o', 't', '_',
            'r', 'e', 'g', 'i', 's', 't', 'e', 'r', 'e', 'd']
    | some md =>
      if claims.HasPermission md.Service md.BitValue then .allow
      else
        .reject 403
          ['p', 'e', 'r', 'm', 'i', 's', 's', 'i', 'o', 'n', '_', 'd', 'e', 'n', 'i', 'e', 'd']

/-! ## Permission store (`permissions.Store`) -/

/-- The permission store's state: its `byCode` map. -/
structure Store where
  byCode : List (List Char × Metadata)
deriving DecidableEq

/-- The map built by `Store.Replace`: empty input empties the store,
otherwise keys are trimmed and entries with empty trimmed keys dropped. -/
def replaceMap (perms : List (List Char × Metadata)) : List (List Char × Metadata) :=
  if perms.length = 0 then []
  else
    perms.foldl
      (fun acc p => if trimGo p.1 = [] then acc else mapInsert acc (trimGo p.1) p.2) []

/-- `Store.Replace`: swap in the rebuilt map wholesale. -/
def Store.Replace (_s : Store) (perms : List (List Char × Metadata)) : Store :=
  { byCode := replaceMap perms }

/-- `Store.Snapshot`: the current map, as a value (the Go code returns a
freshly copied map, which explicit state passing models as a pure value). -/
def Store.Snapshot (s : Store) : List (List Char × Metadata) := s.byCode

/-- Spec-side description of the post-`Replace` contents: the input with
each key trimmed and empty-trimmed-key entries dropped. -/
def specTrimmedMap (m : List (List Char × Metadata)) : List (List Char × Metadata) :=
  m.filterMap (fun p => if trimGo p.1 = [] then none else some (trimGo p.1, p.2))

/-! ## Permission code generation (`permissions.GenerateCode`) -/

/-- Go `strings.ReplaceAll(s, " ", "")`: removes ASCII space characters
only. -/
def removeSpaces (l : List Char) : List Char := l.filter (fun c => c ≠ ' ')

/-- `normalize` of `pkg/permissions/catalog.go`: trim, strip ASCII spaces,
lower-case. -/
def normalizeGo (l : List Char) : List Char := toLowerGo (removeSpaces (trimGo l))

/-- The `short` helper of `GenerateCode`: upper-cased first three
characters of the normalized input (everything if shorter). -/
def shortCode (s : List Char) : List Char := toUpperGo ((normalizeGo s).take 3)

/-- `GenerateCode` of `pkg/permissions/catalog.go`: the non-empty short
codes of the three inputs joined with hyphens. -/
def GenerateCode (service category subCategory : List Char) : List Char :=
  joinSep '-'
    (([shortCode service, shortCode category, shortCode subCategory]).filter
      (fun p => p ≠ []))

/-- The plain hyphen-join `GenerateCode` variant (second source variant of
the permissions catalog). -/
def GenerateCodePlain (service category action : List Char) : List Char :=
  normalizeGo service ++ '-' :: (normalizeGo category ++ '-' :: normalizeGo action)

/-- Claim-side relation of C7, following the spec's words: two strings
differ only in letter case or in whitespace when they agree after deleting
all whitespace and lower-casing. -/
abbrev specCaseWhitespaceVariant (a b : List Char) : Prop :=
  toLowerGo (a.filter (fun c => isGoSpace c = false)) =
    toLowerGo (b.filter (fun c => isGoSpace c = false))

/-! ## Token cache (`http.TokenCache`) -/

/-- `TokenCache` state: cached token, its expiry, and the refresh buffer
(times as integer nanoseconds). -/
structure TokenCache where
  token : List Char
  expiresAt : Int
  refreshBuffer : Int
deriving DecidableEq

/-- Thirty seconds in nanoseconds (`30 * time.Second`). -/
def thirtySecondsNs : Int := 30 * 1000000000

/-- `NewTokenCache`: a non-positive refresh buffer defaults to 30 seconds;
token and expiry start at their zero values. -/
def NewTokenCache (refreshBuffer : Int) : TokenCache :=
  { token := []
    expiresAt := 0
    refreshBuffer := if refreshBuffer ≤ 0 then thirtySecondsNs else refreshBuffer }

/-- The validity check `tc.token != "" && now.Before(tc.expiresAt.Add(-tc.refreshBuffer))`. -/
def TokenCache.cacheValid (tc : TokenCache) (now : Int) : Bool :=
  decide (tc.token ≠ []) && decide (now < tc.expiresAt - tc.refreshBuffer)

/-- Result of one `GetToken` call: the returned token or error, the cache
state afterwards, and how many times the provider's `FetchToken` ran. -/
structure GetTokenResult where
  result : Except (List Char) (List Char)
  state : TokenCache
  fetchCount : Nat

/-- `TokenCache.refreshToken`: double-check under the write lock, then
fetch; on success store token and expiry, on error leave the state
untouched. The provider call is modelled by its outcome `fetch`. -/
def TokenCache.refreshToken (tc : TokenCache) (now : Int)
    (fetch : Except (List Char) (List Char × Int)) : GetTokenResult :=
  if tc.cacheValid now then ⟨.ok tc.token, tc, 0⟩
  else
    match fetch with
    | .error e => ⟨.error e, tc, 1⟩
    | .ok te => ⟨.ok te.1, { tc with token := te.1, expiresAt := te.2 }, 1⟩

/-- `TokenCache.GetToken`: return the cached token while it is valid for
at least `refreshBuffer` longer, otherwise refresh. -/
def TokenCache.GetToken (tc : TokenCache) (now : Int)
    (fetch : Except (List Char) (List Char × Int)) : GetTokenResult :=
  if tc.cacheValid now then ⟨.ok tc.token, tc, 0⟩
  else tc.refreshToken now fetch

/-- `TokenCache.Invalidate`: clear token and expiry. -/
def TokenCache.Invalidate (tc : TokenCache) : TokenCache :=
  { tc with token := [], expiresAt := 0 }

/-! ## Bit-testing lemmas -/

theorem nat_and_two_pow_eq_iff (m n : Nat) : m &&& 2 ^ n = 2 ^ n ↔ m.testBit n = true := by
  have hpos : 0 < 2 ^ n := pow_pos (by norm_num) n
  rw [Nat.and_two_pow]
  cases h : m.testBit n
  · simp only [Bool.toNat_false, Nat.zero_mul, Bool.false_eq_true, iff_false]
    omega
  · simp

theorem nat_ldiff_two_pow_eq_iff (m n : Nat) :
    Nat.ldiff (2 ^ n) m = 2 ^ n ↔ m.testBit n = false := by
  constructor
  · intro h
    have h2 := congrArg (fun x => Nat.testBit x n) h
    simp only [Nat.testBit_ldiff, Nat.testBit_two_pow, decide_eq_true_eq] at h2
    simpa using h2
  · intro h
    apply Nat.eq_of_testBit_eq
    intro i
    rw [Nat.testBit_ldiff]
    by_cases hi : n = i
    · subst hi; simp [Nat.testBit_two_pow, h]
    · simp [Nat.testBit_two_pow, hi]

theorem int_land_two_pow_eq_iff (x : Int) (n : Nat) :
    Int.land x ((2 : Int) ^ n) = (2 : Int) ^ n ↔ Int.testBit x n = true := by
  have hcast : ((2 : Int) ^ n) = Int.ofNat (2 ^ n) := by
    simp [Int.ofNat_eq_natCast]
  rw [hcast]
  cases x with
  | ofNat m =>
    show Int.ofNat (m &&& 2 ^ n) = Int.ofNat (2 ^ n) ↔ Nat.testBit m n = true
    rw [Int.ofNat.injEq]
    exact nat_and_two_pow_eq_iff m n
  | negSucc m =>
    show Int.ofNat (Nat.ldiff (2 ^ n) m) = Int.ofNat (2 ^ n) ↔ (!(Nat.testBit m n)) = true
    rw [Int.ofNat.injEq, Bool.not_eq_true']
    exact nat_ldiff_two_pow_eq_iff m n

/-! ## C1: `Claims.HasPermission` functional specification -/

/-- C1: for every service string and non-negative `bitValue`, with `ranges`
the (possibly empty) list stored under the lower-cased trimmed service key,
`HasPermission` returns true exactly when `bitValue / 63` is a valid index
into `ranges` and bit `bitValue % 63` of that range is set; for every
negative `bitValue` it returns false regardless of the ranges. -/
theorem hasPermission_spec (c : Claims) (service : List Char) (bitValue : Int) :
    (bitValue < 0 → c.HasPermission service bitValue = false) ∧
    (0 ≤ bitValue →
      (c.HasPermission service bitValue = true ↔
        bitValue / 63 <
            (((mapLookup c.ServicePermissions (toLowerGo (trimGo service))).getD []).length : Int) ∧
          Int.testBit
            (((mapLookup c.ServicePermissions (toLowerGo (trimGo service))).getD []).getD
              (bitValue / 63).toNat 0)
            (bitValue % 63).toNat = true)) := by
  constructor
  · intro hneg
    simp [Claims.HasPermission, if_pos hneg]
  · intro hpos
    have hidx : 0 ≤ bitValue / 63 := Int.ediv_nonneg hpos (by norm_num)
    simp only [Claims.HasPermission]
    rw [if_neg (by omega)]
    set ranges := (mapLookup c.ServicePermissions (toLowerGo (trimGo service))).getD []
      with hr
    by_cases hlen : ranges.length = 0
    · rw [if_pos hlen]
      constructor
      · intro hfalse; exact absurd hfalse (by simp)
      · rintro ⟨hlt, -⟩
        rw [hlen] at hlt
        omega
    · rw [if_neg hlen]
      by_cases hin : bitValue / 63 < (ranges.length : Int)
      · rw [if_pos hin]
        rw [decide_eq_true_iff]
        rw [int_land_two_pow_eq_iff]
        exact ⟨fun h => ⟨hin, h⟩, fun h => h.2⟩
      · rw [if_neg hin]
        constructor
        · intro hfalse; exact absurd hfalse (by simp)
        · rintro ⟨hlt, -⟩; exact absurd hlt hin

/-- Witness for C1: the spec's own scenario, bit position 2 against the
single range 5 (binary 101). -/
theorem hasPermission_spec_witness :
    Claims.HasPermission ⟨[], [], [], [], [(['p', 'm', 's'], [5])], []⟩ ['p', 'm', 's'] 2 = true := by
  have h := (hasPermission_spec ⟨[], [], [], [], [(['p', 'm', 's'], [5])], []⟩ ['p', 'm', 's'] 2).2
    (by norm_num)
  exact h.mpr (by constructor <;> decide)

/-! ## C3: bit position zero is a valid permission position -/

/-- C3: with a non-empty range list for the service, `HasPermission` at bit
value 0 returns exactly bit 0 of the first range; it is never
unconditionally false merely because the bit value is zero. -/
theorem hasPermission_zero_valid (c : Claims) (service : List Char)
    (h : (mapLookup c.ServicePermissions (toLowerGo (trimGo service))).getD [] ≠ []) :
    c.HasPermission service 0 =
      Int.testBit
        (((mapLookup c.ServicePermissions (toLowerGo (trimGo service))).getD []).getD 0 0) 0 := by
  simp only [Claims.HasPermission]
  rw [if_neg (by norm_num)]
  set ranges := (mapLookup c.ServicePermissions (toLowerGo (trimGo service))).getD []
    with hr
  have hlen : ranges.length ≠ 0 := by
    intro h0
    exact h (List.length_eq_zero.mp h0)
  rw [if_neg hlen]
  have hin : (0 : Int) / 63 < (ranges.length : Int) := by
    have : 0 < ranges.length := Nat.pos_of_ne_zero hlen
    simp
    omega
  rw [if_pos hin]
  simp only [Int.zero_ediv, Int.zero_emod, Int.toNat_zero, pow_zero]
  have heq : Int.land (ranges.getD 0 0) 1 = 1 ↔ Int.testBit (ranges.getD 0 0) 0 = true := by
    have h2 := int_land_two_pow_eq_iff (ranges.getD 0 0) 0
    rwa [pow_zero] at h2
  cases htb : Int.testBit (ranges.getD 0 0) 0
  · refine decide_eq_false (fun hP => ?_)
    rw [heq.mp hP] at htb
    exact Bool.noConfusion htb
  · exact decide_eq_true (heq.mpr htb)

/-- Witness for C3: a caller whose first range is 1 (bit 0 set) holds
permission 0. -/
theorem hasPermission_zero_valid_witness :
    ((mapLookup (Claims.ServicePermissions ⟨[], [], [], [], [(['u'], [1])], []⟩)
        (toLowerGo (trimGo ['u']))).getD [] ≠ []) ∧
      Claims.HasPermission ⟨[], [], [], [], [(['u'], [1])], []⟩ ['u'] 0 = true := by
  refine ⟨by decide, ?_⟩
  rw [hasPermission_zero_valid ⟨[], [], [], [], [(['u'], [1])], []⟩ ['u'] (by decide)]
  decide

/-! ## C2: `RequirePermission` decision order -/

/-- C2: after authentication, a service token is allowed unconditionally
for every lookup collaborator; otherwise an unregistered code is rejected
with 403 `permission_not_registered`, and a registered code is allowed
exactly when `HasPermission` holds for its metadata, rejecting with 403
`permission_denied` otherwise. -/
theorem requirePermission_spec (claims : Claims)
    (lookup : List Char → Option Metadata) (code : List Char) :
    (claims.IsServiceToken = true →
      ∀ lookup' : List Char → Option Metadata,
        requirePermissionDecision claims lookup' code = .allow) ∧
    (claims.IsServiceToken = false → lookup code = none →
      requirePermissionDecision claims lookup code =
        .reject 403 "permission_not_registered".toList) ∧
    (∀ md : Metadata, claims.IsServiceToken = false → lookup code = some md →
      requirePermissionDecision claims lookup code =
        if claims.HasPermission md.Service md.BitValue then .allow
        else .reject 403 "permission_denied".toList) := by
  refine ⟨?_, ?_, ?_⟩
  · intro h lookup'
    simp [requirePermissionDecision, h]
  · intro h hnone
    simp [requirePermissionDecision, h, hnone]
  · intro md h hsome
    simp only [requirePermissionDecision, h, Bool.false_eq_true, if_false, hsome]
    by_cases hp : claims.HasPermission md.Service md.BitValue
    · simp [hp]
    · simp [hp]

/-- Witness for C2: a request carrying `token_use: "service"` proceeds, and
an unregistered code for a plain token is rejected with
`permission_not_registered`. -/
theorem requirePermission_spec_witness :
    requirePermissionDecision
        ⟨[], [], [], "service".toList, [], []⟩ (fun _ => none) ['x'] = .allow ∧
      requirePermissionDecision ⟨[], [], [], "access".toList, [], []⟩ (fun _ => none) ['x'] =
        .reject 403 "permission_not_registered".toList := by
  constructor
  · exact (requirePermission_spec ⟨[], [], [], "service".toList, [], []⟩ (fun _ => none)
      ['x']).1 (by decide) (fun _ => none)
  · exact (requirePermission_spec ⟨[], [], [], "access".toList, [], []⟩ (fun _ => none)
      ['x']).2.1 (by decide) rfl

/-! ## C10: tokens without a usable `token_use` never bypass the check -/

/-- C10: when the raw claim map lacks `token_use` or holds the empty string
there, the claims produced by `mapClaimsToAuthClaims` are not a service
token, so the request always goes through the permission lookup and
bit check. -/
theorem no_token_use_no_bypass (raw : List (List Char × GoVal))
    (h : mapLookup raw ['t', 'o', 'k', 'e', 'n', '_', 'u', 's', 'e'] = none ∨
      mapLookup raw ['t', 'o', 'k', 'e', 'n', '_', 'u', 's', 'e'] = some (.vstr [])) :
    (mapClaimsToAuthClaims raw).IsServiceToken = false ∧
    ∀ (lookup : List Char → Option Metadata) (code : List Char),
      requirePermissionDecision (mapClaimsToAuthClaims raw) lookup code =
        match lookup code with
        | none => .reject 403 "permission_not_registered".toList
        | some md =>
          if (mapClaimsToAuthClaims raw).HasPermission md.Service md.BitValue then .allow
          else .reject 403 "permission_denied".toList := by
  have htu : (mapClaimsToAuthClaims raw).IsServiceToken = false := by
    rcases h with h | h
    · simp only [mapClaimsToAuthClaims, Claims.IsServiceToken, h]
      decide
    · simp only [mapClaimsToAuthClaims, Claims.IsServiceToken, h]
      decide
  refine ⟨htu, ?_⟩
  intro lookup code
  simp only [requirePermissionDecision, htu, Bool.false_eq_true, if_false]
  cases lookup code <;> rfl

/-- Witness for C10: a raw claim map with no `token_use` key produces a
non-service token that is rejected on an unregistered code. -/
theorem no_token_use_no_bypass_witness :
    (mapClaimsToAuthClaims [(['s', 'u', 'b'], .vstr ['u'])]).IsServiceToken = false ∧
      requirePermissionDecision (mapClaimsToAuthClaims [(['s', 'u', 'b'], .vstr ['u'])])
          (fun _ => none) ['x'] =
        .reject 403 "permission_not_registered".toList := by
  have h := no_token_use_no_bypass [(['s', 'u', 'b'], .vstr ['u'])] (Or.inl (by decide))
  exact ⟨h.1, h.2 (fun _ => none) ['x']⟩

/-! ## C8: `TokenCache.GetToken`, `Invalidate`, constructor default -/

/-- C8: `GetToken` returns the cached token without any fetch while it is
valid for at least `refreshBuffer` longer; otherwise it fetches exactly
once, stores and returns the result (propagating fetch errors with the
state untouched); after `Invalidate` the next `GetToken` always fetches;
and a non-positive constructor buffer behaves as the 30-second default. -/
theorem tokenCache_spec (tc : TokenCache) (now : Int)
    (fetch : Except (List Char) (List Char × Int)) :
    (tc.cacheValid now = true →
      tc.GetToken now fetch = ⟨.ok tc.token, tc, 0⟩) ∧
    (tc.cacheValid now = false →
      (tc.GetToken now fetch).fetchCount = 1 ∧
      (∀ t e, fetch = .ok (t, e) →
        tc.GetToken now fetch = ⟨.ok t, { tc with token := t, expiresAt := e }, 1⟩) ∧
      (∀ err, fetch = .error err →
        tc.GetToken now fetch = ⟨.error err, tc, 1⟩)) ∧
    ((tc.Invalidate).cacheValid now = false ∧
      ((tc.Invalidate).GetToken now fetch).fetchCount = 1) ∧
    (∀ b : Int, b ≤ 0 → NewTokenCache b = NewTokenCache thirtySecondsNs) := by
  have hinv : (tc.Invalidate).cacheValid now = false := by
    simp [TokenCache.Invalidate, TokenCache.cacheValid]
  have hfetch : ∀ tc' : TokenCache, tc'.cacheValid now = false →
      (tc'.GetToken now fetch).fetchCount = 1 := by
    intro tc' h
    simp only [TokenCache.GetToken, TokenCache.refreshToken, h, Bool.false_eq_true, if_false]
    cases fetch <;> rfl
  refine ⟨?_, ?_, ⟨hinv, hfetch tc.Invalidate hinv⟩, ?_⟩
  · intro h
    simp [TokenCache.GetToken, h]
  · intro h
    refine ⟨hfetch tc h, ?_, ?_⟩
    · intro t e hok
      simp [TokenCache.GetToken, TokenCache.refreshToken, h, hok]
    · intro err herr
      simp [TokenCache.GetToken, TokenCache.refreshToken, h, herr]
  · intro b hb
    simp only [NewTokenCache, if_pos hb]
    rw [if_neg (by norm_num [thirtySecondsNs])]

/-- Witness for C8: a fresh cache (empty token) fetches once and stores the
provider's result. -/
theorem tokenCache_spec_witness :
    (NewTokenCache 5).GetToken 0 (.ok (['t'], 100)) =
      ⟨.ok ['t'], { NewTokenCache 5 with token := ['t'], expiresAt := 100 }, 1⟩ :=
  ((tokenCache_spec (NewTokenCache 5) 0 (.ok (['t'], 100))).2.1 (by decide)).2.1 ['t'] 100 rfl

/-! ## C7: `GenerateCode` determinism and normalization -/

/-- C7 counterexample: the inputs `"a\tb"` and `"a b"` differ only in
whitespace in the claim's sense, yet both code-generation variants produce
different codes for them, because the normalization removes only the ASCII
space character from the interior of a string. -/
theorem generateCode_claim_counterexample :
    specCaseWhitespaceVariant ['a', '\t', 'b'] ['a', ' ', 'b'] ∧
      GenerateCode ['a', '\t', 'b'] ['x'] ['y'] ≠ GenerateCode ['a', ' ', 'b'] ['x'] ['y'] ∧
      GenerateCodePlain ['a', '\t', 'b'] ['x'] ['y'] ≠
        GenerateCodePlain ['a', ' ', 'b'] ['x'] ['y'] := by
  refine ⟨by decide, by decide, by decide⟩

/-- C7 (amended): `GenerateCode` is deterministic, and two calls whose
corresponding inputs agree after trimming surrounding whitespace, deleting
ASCII space characters, and lower-casing return the same code, for both
source variants. -/
theorem generateCode_normalization (s1 c1 a1 s2 c2 a2 : List Char)
    (hs : normalizeGo s1 = normalizeGo s2) (hc : normalizeGo c1 = normalizeGo c2)
    (ha : normalizeGo a1 = normalizeGo a2) :
    GenerateCode s1 c1 a1 = GenerateCode s1 c1 a1 ∧
      GenerateCode s1 c1 a1 = GenerateCode s2 c2 a2 ∧
      GenerateCodePlain s1 c1 a1 = GenerateCodePlain s2 c2 a2 := by
  refine ⟨rfl, ?_, ?_⟩
  · unfold GenerateCode shortCode
    rw [hs, hc, ha]
  · unfold GenerateCodePlain
    rw [hs, hc, ha]

/-- Witness for C7: inputs differing in case, an interior ASCII space, and
surrounding whitespace generate the same code. -/
theorem generateCode_normalization_witness :
    GenerateCode [' ', 'A', ' ', 'b'] ['X'] ['y'] = GenerateCode ['a', 'b'] ['x'] [' ', 'Y'] :=
  (generateCode_normalization [' ', 'A', ' ', 'b'] ['X'] ['y'] ['a', 'b'] ['x'] [' ', 'Y']
    (by decide) (by decide) (by decide)).2.1

/-! ## Association-list lemmas -/

theorem mapInsert_of_lookup_none {α β : Type} [DecidableEq α]
    (l : List (α × β)) (k : α) (v : β) (h : mapLookup l k = none) :
    mapInsert l k v = l ++ [(k, v)] := by
  induction l with
  | nil => rfl
  | cons p rest ih =>
    cases p with
    | mk k' v' =>
      rw [mapLookup] at h
      by_cases hk : k' = k
      · rw [if_pos hk] at h
        exact absurd h (by simp)
      · rw [if_neg hk] at h
        rw [mapInsert, if_neg hk, ih h]
        rfl

theorem mapLookup_append_of_none {α β : Type} [DecidableEq α]
    (l1 l2 : List (α × β)) (k : α) (h : mapLookup l1 k = none) :
    mapLookup (l1 ++ l2) k = mapLookup l2 k := by
  induction l1 with
  | nil => rfl
  | cons p rest ih =>
    cases p with
    | mk k' v' =>
      rw [mapLookup] at h
      by_cases hk : k' = k
      · rw [if_pos hk] at h
        exact absurd h (by simp)
      · rw [if_neg hk] at h
        rw [List.cons_append, mapLookup, if_neg hk]
        exact ih h

theorem mapLookup_singleton_ne {α β : Type} [DecidableEq α]
    (k k' : α) (v : β) (h : k ≠ k') : mapLookup [(k, v)] k' = none := by
  rw [mapLookup, if_neg h]
  rfl

/-! ## C6: `Store.Replace` then `Store.Snapshot` -/

theorem replaceFold_eq_specTrimmedMap (m : List (List Char × Metadata)) :
    ∀ acc : List (List Char × Metadata),
      ((specTrimmedMap m).map Prod.fst).Nodup →
      (∀ p ∈ specTrimmedMap m, mapLookup acc p.1 = none) →
      m.foldl
          (fun acc p => if trimGo p.1 = [] then acc else mapInsert acc (trimGo p.1) p.2) acc =
        acc ++ specTrimmedMap m := by
  induction m with
  | nil =>
    intro acc _ _
    simp [specTrimmedMap]
  | cons p rest ih =>
    intro acc hnd hacc
    by_cases hp : trimGo p.1 = []
    · have hsp : specTrimmedMap (p :: rest) = specTrimmedMap rest := by
        simp [specTrimmedMap, hp]
      rw [hsp] at hnd hacc ⊢
      simp only [List.foldl_cons, if_pos hp]
      exact ih acc hnd hacc
    · have hsp : specTrimmedMap (p :: rest) = (trimGo p.1, p.2) :: specTrimmedMap rest := by
        simp [specTrimmedMap, hp]
      rw [hsp] at hnd hacc
      simp only [List.map_cons, List.nodup_cons] at hnd
      simp only [List.foldl_cons, if_neg hp]
      rw [mapInsert_of_lookup_none acc _ _ (hacc _ (List.mem_cons_self _ _))]
      rw [ih (acc ++ [(trimGo p.1, p.2)]) hnd.2 ?_]
      · rw [hsp, List.append_assoc]
        rfl
      · intro q hq
        rw [mapLookup_append_of_none _ _ _ (hacc q (List.mem_cons_of_mem _ hq))]
        apply mapLookup_singleton_ne
        intro hkq
        exact hnd.1 (hkq ▸ List.mem_map_of_mem Prod.fst hq)

/-- C6: `Replace` then `Snapshot` yields the input map with keys trimmed
and empty-trimmed-key entries dropped (assuming the trimmed keys are
pairwise distinct, which is what makes that description a well-defined
map); replacing with the empty map empties the store; and the replaced
contents depend only on the input, never on the previous store value, so
an earlier snapshot can never observe a later `Replace`. -/
theorem store_replace_snapshot_spec (s : Store) (m : List (List Char × Metadata))
    (hnd : ((specTrimmedMap m).map Prod.fst).Nodup) :
    (s.Replace m).Snapshot = specTrimmedMap m ∧
      (s.Replace []).Snapshot = [] ∧
      ∀ s' : Store, (s.Replace m).Snapshot = (s'.Replace m).Snapshot := by
  refine ⟨?_, rfl, fun s' => rfl⟩
  show replaceMap m = specTrimmedMap m
  unfold replaceMap
  by_cases hm : m.length = 0
  · rw [if_pos hm]
    cases m with
    | nil => simp [specTrimmedMap]
    | cons p rest => simp at hm
  · rw [if_neg hm]
    have h := replaceFold_eq_specTrimmedMap m [] hnd (fun p _ => rfl)
    simpa using h

/-- Witness for C6: a map with a padded key, an empty key, and a clean key
snapshots to the trimmed two-entry map. -/
theorem store_replace_snapshot_spec_witness :
    (Store.Replace ⟨[]⟩
          [([' ', 'a', ' '], ⟨['1'], ['s'], 1⟩), ([], ⟨['2'], ['s'], 2⟩),
            (['b'], ⟨['3'], ['s'], 3⟩)]).Snapshot =
      [(['a'], ⟨['1'], ['s'], 1⟩), (['b'], ⟨['3'], ['s'], 3⟩)] :=
  ((store_replace_snapshot_spec ⟨[]⟩
        [([' ', 'a', ' '], ⟨['1'], ['s'], 1⟩), ([], ⟨['2'], ['s'], 2⟩),
          (['b'], ⟨['3'], ['s'], 3⟩)] (by decide)).1).trans (by decide)

/-! ## Trimming and splitting lemmas -/

theorem dropWhile_eq_self_of_forall (p : Char → Bool) (l : List Char)
    (h : ∀ c ∈ l, p c = false) : l.dropWhile p = l := by
  cases l with
  | nil => rfl
  | cons c t =>
    rw [List.dropWhile_cons, if_neg (by simp [h c (List.mem_cons_self c t)])]

theorem trimGo_eq_self_of_forall (l : List Char) (h : ∀ c ∈ l, isGoSpace c = false) :
    trimGo l = l := by
  unfold trimGo
  rw [dropWhile_eq_self_of_forall _ _ h,
    dropWhile_eq_self_of_forall _ _ (fun c hc => h c (List.mem_reverse.mp hc)),
    List.reverse_reverse]

theorem trimGo_eq_self_head_last (l : List Char)
    (h1 : ∀ c, l.head? = some c → isGoSpace c = false)
    (h2 : ∀ c, l.getLast? = some c → isGoSpace c = false) : trimGo l = l := by
  unfold trimGo
  have hd : l.dropWhile isGoSpace = l := by
    cases l with
    | nil => rfl
    | cons c t => rw [List.dropWhile_cons, if_neg (by simp [h1 c rfl])]
  rw [hd]
  have hr : l.reverse.dropWhile isGoSpace = l.reverse := by
    cases hrev : l.reverse with
    | nil => rfl
    | cons c t =>
      have hlast : l.getLast? = some c := by
        rw [← List.head?_reverse, hrev]
        rfl
      rw [List.dropWhile_cons, if_neg (by simp [h2 c hlast])]
  rw [hr, List.reverse_reverse]

theorem isGoSpace_false_of_trim_cons (c : Char) (t : List Char)
    (h : trimGo (c :: t) = c :: t) : isGoSpace c = false := by
  by_contra hsp
  rw [Bool.not_eq_false] at hsp
  have hlen : (trimGo (c :: t)).length ≤ t.length := by
    unfold trimGo
    rw [List.dropWhile_cons, if_pos hsp]
    calc ((t.dropWhile isGoSpace).reverse.dropWhile isGoSpace).reverse.length
        = ((t.dropWhile isGoSpace).reverse.dropWhile isGoSpace).length :=
          List.length_reverse _
      _ ≤ (t.dropWhile isGoSpace).reverse.length :=
          (List.dropWhile_sublist _).length_le
      _ = (t.dropWhile isGoSpace).length := List.length_reverse _
      _ ≤ t.length := (List.dropWhile_sublist _).length_le
  rw [h] at hlen
  simp at hlen

theorem all_space_of_trimGo_eq_nil (l : List Char) (h : trimGo l = []) :
    ∀ c ∈ l, isGoSpace c = true := by
  unfold trimGo at h
  rw [List.reverse_eq_nil_iff] at h
  have h2 : ∀ c ∈ (l.dropWhile isGoSpace).reverse, isGoSpace c = true :=
    List.dropWhile_eq_nil_iff.mp h
  intro c hc
  rw [← List.takeWhile_append_dropWhile isGoSpace l] at hc
  rcases List.mem_append.mp hc with h3 | h3
  · exact List.mem_takeWhile_imp h3
  · exact h2 c (List.mem_reverse.mpr h3)

theorem splitOn_cons (sep c : Char) (t : List Char) :
    splitOn sep (c :: t) =
      if c = sep then [] :: splitOn sep t
      else (c :: (splitOn sep t).headD []) :: (splitOn sep t).tail := rfl

theorem splitOn_eq_single (sep : Char) (l : List Char) (h : sep ∉ l) :
    splitOn sep l = [l] := by
  induction l with
  | nil => rfl
  | cons c t ih =>
    have hc : ¬(c = sep) := fun he => h (he ▸ List.mem_cons_self c t)
    have ht : sep ∉ t := fun hm => h (List.mem_cons_of_mem c hm)
    rw [splitOn_cons, if_neg hc, ih ht]
    rfl

theorem splitOn_append_cons (sep : Char) (a b : List Char) (h : sep ∉ a) :
    splitOn sep (a ++ sep :: b) = a :: splitOn sep b := by
  induction a with
  | nil => rw [List.nil_append, splitOn_cons, if_pos rfl]
  | cons c t ih =>
    have hc : ¬(c = sep) := fun he => h (he ▸ List.mem_cons_self c t)
    have ht : sep ∉ t := fun hm => h (List.mem_cons_of_mem c hm)
    rw [List.cons_append, splitOn_cons, if_neg hc, ih ht]
    rfl

theorem joinSep_cons2 (sep : Char) (x y : List Char) (t : List (List Char)) :
    joinSep sep (x :: y :: t) = x ++ sep :: joinSep sep (y :: t) := rfl

theorem splitOn_joinSep (sep : Char) (xs : List (List Char)) (hne : xs ≠ [])
    (h : ∀ x ∈ xs, sep ∉ x) : splitOn sep (joinSep sep xs) = xs := by
  induction xs with
  | nil => exact absurd rfl hne
  | cons x rest ih =>
    cases rest with
    | nil => exact splitOn_eq_single sep x (h x (List.mem_cons_self _ _))
    | cons y t =>
      rw [joinSep_cons2, splitOn_append_cons sep x _ (h x (List.mem_cons_self _ _)),
        ih (by simp) (fun z hz => h z (List.mem_cons_of_mem _ hz))]

theorem mem_joinSep (sep : Char) (xs : List (List Char)) (c : Char)
    (hc : c ∈ joinSep sep xs) : c = sep ∨ ∃ x ∈ xs, c ∈ x := by
  induction xs with
  | nil => cases hc
  | cons x rest ih =>
    cases rest with
    | nil => exact Or.inr ⟨x, List.mem_cons_self _ _, hc⟩
    | cons y t =>
      rw [joinSep_cons2] at hc
      rcases List.mem_append.mp hc with h1 | h1
      · exact Or.inr ⟨x, List.mem_cons_self _ _, h1⟩
      · rcases List.mem_cons.mp h1 with rfl | h2
        · exact Or.inl rfl
        · rcases ih h2 with h3 | ⟨z, hz, hcz⟩
          · exact Or.inl h3
          · exact Or.inr ⟨z, List.mem_cons_of_mem _ hz, hcz⟩

theorem joinSep_cons_ne_nil (sep : Char) (x : List Char) (t : List (List Char))
    (hx : x ≠ []) : joinSep sep (x :: t) ≠ [] := by
  cases t with
  | nil => exact hx
  | cons y t2 =>
    rw [joinSep_cons2]
    simp

theorem splitFirst_cons (sep c : Char) (t : List Char) :
    splitFirst sep (c :: t) =
      if c = sep then some ([], t)
      else (splitFirst sep t).map (fun p => (c :: p.1, p.2)) := rfl

theorem splitFirst_append (sep : Char) (a b : List Char) (h : sep ∉ a) :
    splitFirst sep (a ++ sep :: b) = some (a, b) := by
  induction a with
  | nil => rw [List.nil_append, splitFirst_cons, if_pos rfl]
  | cons c t ih =>
    have hc : ¬(c = sep) := fun he => h (he ▸ List.mem_cons_self c t)
    have ht : sep ∉ t := fun hm => h (List.mem_cons_of_mem c hm)
    rw [List.cons_append, splitFirst_cons, if_neg hc, ih ht]
    rfl

theorem splitFirst_eq_none (sep : Char) (l : List Char) (h : sep ∉ l) :
    splitFirst sep l = none := by
  induction l with
  | nil => rfl
  | cons c t ih =>
    have hc : ¬(c = sep) := fun he => h (he ▸ List.mem_cons_self c t)
    have ht : sep ∉ t := fun hm => h (List.mem_cons_of_mem c hm)
    rw [splitFirst_cons, if_neg hc, ih ht]
    rfl

/-! ## Base-36 formatting and parsing lemmas -/

theorem digitChar36_facts :
    ∀ d, d < 36 → digitVal (digitChar36 d) = some d ∧ isGoSpace (digitChar36 d) = false ∧
      digitChar36 d ≠ ';' ∧ digitChar36 d ≠ ':' ∧ digitChar36 d ≠ ',' ∧
      digitChar36 d ≠ '+' ∧ digitChar36 d ≠ '-' := by decide

theorem toDigitsRevCore_succ (fuel n : Nat) :
    toDigitsRevCore (fuel + 1) n =
      if n < 36 then [digitChar36 n]
      else digitChar36 (n % 36) :: toDigitsRevCore fuel (n / 36) := rfl

theorem toDigitsRevCore_fuel_irrel :
    ∀ f g n : Nat, n < f → n < g → toDigitsRevCore f n = toDigitsRevCore g n := by
  intro f
  induction f with
  | zero => intro g n h; omega
  | succ f ih =>
    intro g n hf hg
    cases g with
    | zero => omega
    | succ g =>
      rw [toDigitsRevCore_succ, toDigitsRevCore_succ]
      by_cases h36 : n < 36
      · rw [if_pos h36, if_pos h36]
      · rw [if_neg h36, if_neg h36]
        congr 1
        have hdiv : n / 36 < n := Nat.div_lt_self (by omega) (by omega)
        exact ih g (n / 36) (by omega) (by omega)

theorem toDigitsRev_eq (n : Nat) :
    toDigitsRev n =
      if n < 36 then [digitChar36 n]
      else digitChar36 (n % 36) :: toDigitsRev (n / 36) := by
  unfold toDigitsRev
  rw [toDigitsRevCore_succ]
  by_cases h : n < 36
  · rw [if_pos h, if_pos h]
  · rw [if_neg h, if_neg h]
    congr 1
    exact toDigitsRevCore_fuel_irrel n (n / 36 + 1) (n / 36)
      (Nat.div_lt_self (by omega) (by omega)) (by omega)

theorem toDigitsRev_ne_nil (n : Nat) : toDigitsRev n ≠ [] := by
  rw [toDigitsRev_eq]
  by_cases h : n < 36 <;> simp [h]

theorem toDigitsRev_mem (n : Nat) : ∀ c ∈ toDigitsRev n, ∃ d, d < 36 ∧ c = digitChar36 d := by
  induction n using Nat.strong_induction_on with
  | _ n ih =>
    intro c hc
    rw [toDigitsRev_eq] at hc
    by_cases h : n < 36
    · rw [if_pos h] at hc
      rw [List.mem_singleton] at hc
      exact ⟨n, h, hc⟩
    · rw [if_neg h] at hc
      rcases List.mem_cons.mp hc with rfl | hc2
      · exact ⟨n % 36, Nat.mod_lt _ (by omega), rfl⟩
      · exact ih (n / 36) (Nat.div_lt_self (by omega) (by omega)) c hc2

theorem parseNatCore_cons (acc : Nat) (c : Char) (rest : List Char) :
    parseNatCore acc (c :: rest) =
      match digitVal c with
      | none => none
      | some d => parseNatCore (36 * acc + d) rest := rfl

theorem parseNatCore_append (acc : Nat) (l1 l2 : List Char) :
    parseNatCore acc (l1 ++ l2) =
      (parseNatCore acc l1).bind (fun m => parseNatCore m l2) := by
  induction l1 generalizing acc with
  | nil => rfl
  | cons c t ih =>
    rw [List.cons_append, parseNatCore_cons, parseNatCore_cons]
    cases hd : digitVal c with
    | none => rfl
    | some d => exact ih (36 * acc + d)

theorem parseNatCore_format (n : Nat) :
    ∀ acc : Nat, parseNatCore acc (toDigitsRev n).reverse =
      some (acc * 36 ^ (toDigitsRev n).length + n) := by
  induction n using Nat.strong_induction_on with
  | _ n ih =>
    intro acc
    rw [toDigitsRev_eq]
    by_cases h : n < 36
    · rw [if_pos h]
      rw [show ([digitChar36 n] : List Char).reverse = [digitChar36 n] from rfl]
      rw [parseNatCore_cons, (digitChar36_facts n h).1]
      show some (36 * acc + n) = some (acc * 36 ^ ([digitChar36 n] : List Char).length + n)
      rw [List.length_singleton, pow_one]
      congr 1
      omega
    · rw [if_neg h]
      rw [List.reverse_cons, parseNatCore_append]
      rw [ih (n / 36) (Nat.div_lt_self (by omega) (by omega)) acc]
      rw [Option.some_bind]
      rw [parseNatCore_cons, (digitChar36_facts (n % 36) (Nat.mod_lt _ (by omega))).1]
      show some (36 * (acc * 36 ^ (toDigitsRev (n / 36)).length + n / 36) + n % 36) =
        some (acc * 36 ^ (digitChar36 (n % 36) :: toDigitsRev (n / 36)).length + n)
      rw [List.length_cons]
      congr 1
      have hmod := Nat.div_add_mod n 36
      calc 36 * (acc * 36 ^ (toDigitsRev (n / 36)).length + n / 36) + n % 36
          = acc * (36 ^ (toDigitsRev (n / 36)).length * 36) +
              (36 * (n / 36) + n % 36) := by ring
        _ = acc * 36 ^ ((toDigitsRev (n / 36)).length + 1) + n := by rw [← pow_succ, hmod]

theorem parseNatBase36_format (n : Nat) : parseNatBase36 (formatBase36 n) = some n := by
  have h := parseNatCore_format n 0
  cases hf : (toDigitsRev n).reverse with
  | nil => exact absurd (List.reverse_eq_nil_iff.mp hf) (toDigitsRev_ne_nil n)
  | cons c rest =>
    unfold formatBase36
    rw [hf] at h ⊢
    rw [show parseNatBase36 (c :: rest) = parseNatCore 0 (c :: rest) from rfl, h]
    simp

theorem formatBase36_chars (n : Nat) (c : Char) (hc : c ∈ formatBase36 n) :
    isGoSpace c = false ∧ c ≠ ';' ∧ c ≠ ':' ∧ c ≠ ',' ∧ c ≠ '+' ∧ c ≠ '-' := by
  rcases toDigitsRev_mem n c (List.mem_reverse.mp hc) with ⟨d, hd, rfl⟩
  have h := digitChar36_facts d hd
  exact ⟨h.2.1, h.2.2.1, h.2.2.2.1, h.2.2.2.2.1, h.2.2.2.2.2.1, h.2.2.2.2.2.2⟩

theorem formatBase36_ne_nil (n : Nat) : formatBase36 n ≠ [] := by
  unfold formatBase36
  rw [Ne, List.reverse_eq_nil_iff]
  exact toDigitsRev_ne_nil n

theorem parseIntBase36_format (n : Nat) (hn : n < 2 ^ 63) :
    parseIntBase36 (formatBase36 n) = some (n : Int) := by
  cases hf : formatBase36 n with
  | nil => exact absurd hf (formatBase36_ne_nil n)
  | cons c rest =>
    have hc : c ∈ formatBase36 n := by
      rw [hf]
      exact List.mem_cons_self _ _
    have hfacts := formatBase36_chars n c hc
    rw [show parseIntBase36 (c :: rest) =
        (if c = '+' then (parseNatBase36 rest).bind int64OfNat
         else if c = '-' then (parseNatBase36 rest).bind int64NegOfNat
         else (parseNatBase36 (c :: rest)).bind int64OfNat) from rfl]
    rw [if_neg hfacts.2.2.2.2.1, if_neg hfacts.2.2.2.2.2]
    rw [← hf, parseNatBase36_format n]
    rw [show (some n).bind int64OfNat = int64OfNat n from rfl]
    unfold int64OfNat
    rw [if_pos hn]

theorem parseRangeToken_format (n : Nat) (hn : n < 2 ^ 63) :
    parseRangeToken (formatBase36 n) = some (n : Int) := by
  unfold parseRangeToken
  rw [trimGo_eq_self_of_forall _ (fun c hc => (formatBase36_chars n c hc).1)]
  rw [if_neg (formatBase36_ne_nil n)]
  exact parseIntBase36_format n hn

theorem parseRanges_format (rs : List Nat) (h : ∀ r ∈ rs, r < 2 ^ 63) :
    parseRanges (rs.map formatBase36) = rs.map Int.ofNat := by
  induction rs with
  | nil => rfl
  | cons r t ih =>
    rw [List.map_cons, List.map_cons]
    unfold parseRanges
    rw [List.filterMap_cons, parseRangeToken_format r (h r (List.mem_cons_self _ _))]
    show (r : Int) :: List.filterMap parseRangeToken (t.map formatBase36) =
      Int.ofNat r :: t.map Int.ofNat
    rw [show List.filterMap parseRangeToken (t.map formatBase36) =
      parseRanges (t.map formatBase36) from rfl]
    rw [ih (fun x hx => h x (List.mem_cons_of_mem _ hx))]
    rfl

theorem trimGo_eq_self_parts (l : List Char)
    (h1 : l.dropWhile isGoSpace = l) (h2 : l.reverse.dropWhile isGoSpace = l.reverse) :
    trimGo l = l := by
  unfold trimGo
  rw [h1, h2, List.reverse_reverse]

theorem decode_eq_foldl (raw : List Char) :
    decodeServicePermissionsMultiRange raw = (splitOn ';' raw).foldl processEntry [] := by
  unfold decodeServicePermissionsMultiRange
  by_cases h : trimGo raw = []
  · rw [if_pos h]
    have hall := all_space_of_trimGo_eq_nil raw h
    have hsemi : ';' ∉ raw := fun hm => by
      have hsp := hall ';' hm
      exact absurd hsp (by decide)
    rw [splitOn_eq_single ';' raw hsemi]
    have hb : entryBinding raw = none := by
      simp only [entryBinding]
      rw [if_pos h]
    show ([] : SvcMap) = processEntry [] raw
    unfold processEntry
    rw [hb]
  · rw [if_neg h]

/-! ## C4: round-trip stability of the `svc_perm` wire format -/

/-- C4 counterexample: the service keys `"a;b"` and `"a:b"` are non-empty,
trimmed and lower-case, yet decoding the claimed wire string
`key ++ ":" ++ base36(1)` binds neither of them, because the key collides
with the `;` entry separator (respectively the `:` key separator) of the
wire format. -/
theorem decode_roundtrip_counterexample :
    (['a', ';', 'b'] ≠ [] ∧ trimGo ['a', ';', 'b'] = ['a', ';', 'b'] ∧
        toLowerGo ['a', ';', 'b'] = ['a', ';', 'b'] ∧
        mapLookup
          (decodeServicePermissionsMultiRange
            (['a', ';', 'b'] ++ ':' :: joinSep ',' ([1].map formatBase36)))
          ['a', ';', 'b'] = none) ∧
      (['a', ':', 'b'] ≠ [] ∧ trimGo ['a', ':', 'b'] = ['a', ':', 'b'] ∧
        toLowerGo ['a', ':', 'b'] = ['a', ':', 'b'] ∧
        mapLookup
          (decodeServicePermissionsMultiRange
            (['a', ':', 'b'] ++ ':' :: joinSep ',' ([1].map formatBase36)))
          ['a', ':', 'b'] = none) := by
  exact ⟨⟨by decide, by decide, by decide, by decide⟩,
    ⟨by decide, by decide, by decide, by decide⟩⟩

/-- C4 (amended): for every lower-case, trimmed, non-empty service key
containing neither `;` nor `:`, and every non-empty list of non-negative
63-bit range values, decoding `s ++ ":" ++ base36(r0) ++ "," ++ ...` yields
the map that binds exactly `s` to exactly those ranges; hence decoding,
re-encoding in that format, and decoding again is stable. -/
theorem decode_roundtrip (s : List Char) (rs : List Nat)
    (hne : s ≠ []) (htrim : trimGo s = s) (hlow : toLowerGo s = s)
    (hsemi : ';' ∉ s) (hcolon : ':' ∉ s)
    (hrs : rs ≠ []) (hbound : ∀ r ∈ rs, r < 2 ^ 63) :
    decodeServicePermissionsMultiRange (s ++ ':' :: joinSep ',' (rs.map formatBase36)) =
        [(s, rs.map Int.ofNat)] ∧
      decodeServicePermissionsMultiRange
          (encodeSvcPerm
            (decodeServicePermissionsMultiRange
              (s ++ ':' :: joinSep ',' (rs.map formatBase36)))) =
        decodeServicePermissionsMultiRange (s ++ ':' :: joinSep ',' (rs.map formatBase36)) := by
  have hmapne : rs.map formatBase36 ≠ [] := by
    cases rs with
    | nil => exact absurd rfl hrs
    | cons r0 rt => simp
  have hjoined_ne : joinSep ',' (rs.map formatBase36) ≠ [] := by
    cases rs with
    | nil => exact absurd rfl hrs
    | cons r0 rt =>
      rw [List.map_cons]
      exact joinSep_cons_ne_nil ',' _ _ (formatBase36_ne_nil r0)
  have hjchars : ∀ c ∈ joinSep ',' (rs.map formatBase36),
      isGoSpace c = false ∧ c ≠ ';' ∧ c ≠ ':' := by
    intro c hc
    rcases mem_joinSep ',' _ c hc with rfl | ⟨x, hx, hcx⟩
    · exact ⟨by decide, by decide, by decide⟩
    · rcases List.mem_map.mp hx with ⟨r, _, rfl⟩
      have h := formatBase36_chars r c hcx
      exact ⟨h.1, h.2.1, h.2.2.1⟩
  have hwire_ne : s ++ ':' :: joinSep ',' (rs.map formatBase36) ≠ [] := by
    cases s with
    | nil => exact absurd rfl hne
    | cons c0 s2 => simp
  have hwire_semi : ';' ∉ s ++ ':' :: joinSep ',' (rs.map formatBase36) := by
    intro hm
    rcases List.mem_append.mp hm with h1 | h1
    · exact hsemi h1
    · rcases List.mem_cons.mp h1 with h2 | h2
      · exact absurd h2 (by decide)
      · exact (hjchars ';' h2).2.1 rfl
  have htrimwire : trimGo (s ++ ':' :: joinSep ',' (rs.map formatBase36)) =
      s ++ ':' :: joinSep ',' (rs.map formatBase36) := by
    apply trimGo_eq_self_parts
    · cases s with
      | nil => exact absurd rfl hne
      | cons c0 s2 =>
        have hc0 : isGoSpace c0 = false := isGoSpace_false_of_trim_cons c0 s2 htrim
        rw [List.cons_append, List.dropWhile_cons, if_neg (by simp [hc0])]
    · have hjr : (joinSep ',' (rs.map formatBase36)).reverse ≠ [] := by
        rw [Ne, List.reverse_eq_nil_iff]
        exact hjoined_ne
      cases hjrev : (joinSep ',' (rs.map formatBase36)).reverse with
      | nil => exact absurd hjrev hjr
      | cons d jr =>
        have hd : d ∈ joinSep ',' (rs.map formatBase36) :=
          List.mem_reverse.mp (by rw [hjrev]; exact List.mem_cons_self _ _)
        have hdns : isGoSpace d = false := (hjchars d hd).1
        rw [List.reverse_append, List.reverse_cons, hjrev]
        rw [show ((d :: jr) ++ [':']) ++ s.reverse = d :: (jr ++ ':' :: s.reverse) by simp]
        rw [List.dropWhile_cons, if_neg (by simp [hdns])]
  have hsplitcolon : splitFirst ':' (s ++ ':' :: joinSep ',' (rs.map formatBase36)) =
      some (s, joinSep ',' (rs.map formatBase36)) := splitFirst_append ':' s _ hcolon
  have htrimjoined : trimGo (joinSep ',' (rs.map formatBase36)) =
      joinSep ',' (rs.map formatBase36) :=
    trimGo_eq_self_of_forall _ (fun c hc => (hjchars c hc).1)
  have hsplitcomma : splitOn ',' (joinSep ',' (rs.map formatBase36)) = rs.map formatBase36 := by
    apply splitOn_joinSep ',' _ hmapne
    intro x hx
    rcases List.mem_map.mp hx with ⟨r, _, rfl⟩
    intro hm
    exact (formatBase36_chars r ',' hm).2.2.2.1 rfl
  have hrangesne : rs.map Int.ofNat ≠ [] := by
    cases rs with
    | nil => exact absurd rfl hrs
    | cons r0 rt => simp
  have hbind : entryBinding (s ++ ':' :: joinSep ',' (rs.map formatBase36)) =
      some (s, rs.map Int.ofNat) := by
    simp only [entryBinding]
    rw [htrimwire, if_neg hwire_ne, hsplitcolon]
    show (if toLowerGo (trimGo s) = [] then none
          else if trimGo (joinSep ',' (rs.map formatBase36)) = [] then none
          else if parseRanges (splitOn ',' (trimGo (joinSep ',' (rs.map formatBase36)))) = []
            then none
          else some (toLowerGo (trimGo s),
            parseRanges (splitOn ',' (trimGo (joinSep ',' (rs.map formatBase36)))))) =
      some (s, rs.map Int.ofNat)
    rw [htrim, hlow, if_neg hne, htrimjoined, if_neg hjoined_ne, hsplitcomma,
      parseRanges_format rs hbound, if_neg hrangesne]
  have hdecode : decodeServicePermissionsMultiRange
      (s ++ ':' :: joinSep ',' (rs.map formatBase36)) = [(s, rs.map Int.ofNat)] := by
    unfold decodeServicePermissionsMultiRange
    rw [htrimwire, if_neg hwire_ne, splitOn_eq_single ';' _ hwire_semi]
    show processEntry [] (s ++ ':' :: joinSep ',' (rs.map formatBase36)) = _
    unfold processEntry
    rw [hbind]
    rfl
  have hofnat : formatIntBase36 ∘ Int.ofNat = formatBase36 := by
    funext r
    show formatIntBase36 (Int.ofNat r) = formatBase36 r
    unfold formatIntBase36
    simp only [Int.ofNat_eq_natCast]
    rw [if_neg (Int.not_lt.mpr (Int.natCast_nonneg r))]
    rw [Int.toNat_natCast]
  have hencode : encodeSvcPerm [(s, rs.map Int.ofNat)] =
      s ++ ':' :: joinSep ',' (rs.map formatBase36) := by
    show s ++ ':' :: joinSep ',' ((rs.map Int.ofNat).map formatIntBase36) = _
    rw [List.map_map, hofnat]
  refine ⟨hdecode, ?_⟩
  rw [hdecode, hencode]
  exact hdecode

/-- Witness for C4: `"pms" ++ ":" ++ base36(5) ++ "," ++ base36(1295)`
decodes to the map binding `pms` to `[5, 1295]`. -/
theorem decode_roundtrip_witness :
    decodeServicePermissionsMultiRange
        (['p', 'm', 's'] ++ ':' :: joinSep ',' ([5, 1295].map formatBase36)) =
      [(['p', 'm', 's'], [5, 1295].map Int.ofNat)] :=
  (decode_roundtrip ['p', 'm', 's'] [5, 1295] (by decide) (by decide) (by decide) (by decide)
    (by decide) (by decide) (by decide)).1

/-! ## C5: permissive decoding -/

/-- C5: decoding is permissive — an entry that produces no binding (in
particular one with no `:`, or an empty service key, or only unparsable
range tokens) is skipped without affecting the bindings decoded from the
other entries of the claim, and an unparsable range token within an entry
is skipped without affecting the other ranges. -/
theorem decode_permissive :
    (∀ (es1 es2 : List (List Char)) (E : List Char),
        (∀ e ∈ es1, ';' ∉ e) → (∀ e ∈ es2, ';' ∉ e) → ';' ∉ E →
        entryBinding E = none →
        decodeServicePermissionsMultiRange (joinSep ';' (es1 ++ E :: es2)) =
          decodeServicePermissionsMultiRange (joinSep ';' (es1 ++ es2))) ∧
      (∀ E : List Char, ':' ∉ trimGo E → entryBinding E = none) ∧
      (∀ (E svcPart restPart : List Char),
        splitFirst ':' (trimGo E) = some (svcPart, restPart) →
        toLowerGo (trimGo svcPart) = [] → entryBinding E = none) ∧
      (∀ (E svcPart restPart : List Char),
        splitFirst ':' (trimGo E) = some (svcPart, restPart) →
        parseRanges (splitOn ',' (trimGo restPart)) = [] → entryBinding E = none) ∧
      (∀ (ts1 ts2 : List (List Char)) (t : List Char), parseRangeToken t = none →
        parseRanges (ts1 ++ t :: ts2) = parseRanges (ts1 ++ ts2)) := by
  refine ⟨?_, ?_, ?_, ?_, ?_⟩
  · intro es1 es2 E h1 h2 hE hbind
    have hskip : ∀ m : SvcMap, processEntry m E = m := by
      intro m
      unfold processEntry
      rw [hbind]
    have hmem : ∀ x ∈ es1 ++ E :: es2, ';' ∉ x := by
      intro x hx
      rcases List.mem_append.mp hx with hx1 | hx1
      · exact h1 x hx1
      · rcases List.mem_cons.mp hx1 with rfl | hx2
        · exact hE
        · exact h2 x hx2
    have hmem2 : ∀ x ∈ es1 ++ es2, ';' ∉ x := by
      intro x hx
      rcases List.mem_append.mp hx with hx1 | hx1
      · exact h1 x hx1
      · exact h2 x hx1
    rw [decode_eq_foldl, decode_eq_foldl]
    by_cases hcase : es1 ++ es2 = []
    · rcases List.append_eq_nil.mp hcase with ⟨rfl, rfl⟩
      rw [show joinSep ';' ([] ++ E :: []) = E from rfl]
      rw [splitOn_eq_single ';' E hE]
      show processEntry [] E = _
      rw [hskip []]
      rfl
    · rw [splitOn_joinSep ';' _ (by simp) hmem, splitOn_joinSep ';' _ hcase hmem2]
      rw [List.foldl_append, List.foldl_append, List.foldl_cons, hskip]
  · intro E h
    simp only [entryBinding]
    by_cases he : trimGo E = []
    · rw [if_pos he]
    · rw [if_neg he, splitFirst_eq_none ':' _ h]
  · intro E svcPart restPart hsplit hkey
    simp only [entryBinding]
    by_cases he : trimGo E = []
    · rw [if_pos he]
    · rw [if_neg he, hsplit]
      show (if toLowerGo (trimGo svcPart) = [] then none
            else if trimGo restPart = [] then none
            else if parseRanges (splitOn ',' (trimGo restPart)) = [] then none
            else some (toLowerGo (trimGo svcPart),
              parseRanges (splitOn ',' (trimGo restPart)))) = none
      rw [if_pos hkey]
  · intro E svcPart restPart hsplit hranges
    simp only [entryBinding]
    by_cases he : trimGo E = []
    · rw [if_pos he]
    · rw [if_neg he, hsplit]
      show (if toLowerGo (trimGo svcPart) = [] then none
            else if trimGo restPart = [] then none
            else if parseRanges (splitOn ',' (trimGo restPart)) = [] then none
            else some (toLowerGo (trimGo svcPart),
              parseRanges (splitOn ',' (trimGo restPart)))) = none
      by_cases hk : toLowerGo (trimGo svcPart) = []
      · rw [if_pos hk]
      · rw [if_neg hk]
        by_cases hr : trimGo restPart = []
        · rw [if_pos hr]
        · rw [if_neg hr, if_pos hranges]
  · intro ts1 ts2 t h
    unfold parseRanges
    rw [List.filterMap_append, List.filterMap_append, List.filterMap_cons, h]

/-- Witness for C5: the malformed middle entry `bad` is skipped and the
surrounding well-formed entries decode unchanged. -/
theorem decode_permissive_witness :
    decodeServicePermissionsMultiRange
        (joinSep ';' [['a', ':', '1'], ['b', 'a', 'd'], ['b', ':', '2']]) =
      decodeServicePermissionsMultiRange (joinSep ';' [['a', ':', '1'], ['b', ':', '2']]) :=
  decode_permissive.1 [['a', ':', '1']] [['b', ':', '2']] ['b', 'a', 'd']
    (by decide) (by decide) (by decide) (by decide)

end CoreLab
